import Mathlib

/-!
Verification of the mapping-and-routing pipeline of the interactive
installation prototype (`src/mapping.py` and `src/output.py`).

The Python code is shallowly embedded:

* Python `dict`s become association lists (`List (String × α)`); `dget`
  models `d.get(k)` and `dset` models `d[k] = v` (update the first
  occurrence in place, else append — insertion-order semantics).
* Python floats become real numbers `ℝ`; `float(value)` on a sensor
  value becomes `floatOf : PyVal → Option ℝ`, with `Option` standing
  for the caught `TypeError` / `ValueError`.
* The mutable `MappingEngine` (its `_smoothers` dict) becomes explicit
  state passing: `MappingEngine.apply` takes an `EngineState` and
  returns the new state together with the result dict.  The extra
  `touched` field is a ghost log recording, in order, each invocation
  of a `_Smoother` (the only smoother-state creations/mutations in the
  source), so that per-call effect claims can be stated.
* The mutable `OutputTarget` objects become their `last_params`
  payload, and the router's `_targets` dict becomes an association
  list from category to `last_params`; `OutputRouter.route` returns
  the updated registry together with the bucket dict it returns.
-/

/-! ## Association lists modelling Python dicts -/

/-- Lookup in an association list: models Python `d.get(key)`. -/
def dget : List (String × α) → String → Option α
  | [], _ => none
  | (k, v) :: rest, key => if k = key then some v else dget rest key

/-- Assignment `d[key] = val` on a Python dict: replace the value at the
first occurrence of `key` keeping its position, else append. -/
def dset : List (String × α) → String → α → List (String × α)
  | [], key, val => [(key, val)]
  | (k, v) :: rest, key, val =>
      if k = key then (k, val) :: rest else (k, v) :: dset rest key val

/-- A list of pairs has pairwise distinct keys — the invariant of every
association list that stands for an actual Python dict. -/
def NodupKeys (l : List (String × α)) : Prop := (l.map Prod.fst).Nodup

/-! ## Dot-path splitting -/

/-- Helper for `splitDots`: accumulate the current segment (reversed). -/
def splitOnDotAux : List Char → List Char → List (List Char)
  | [], acc => [acc.reverse]
  | c :: cs, acc =>
      if c = '.' then acc.reverse :: splitOnDotAux cs []
      else splitOnDotAux cs (c :: acc)

/-- Python `s.split(".")` (split on every dot, keeping empty segments). -/
def splitDots (s : String) : List String :=
  (splitOnDotAux s.toList []).map String.mk

/-- Characters other than the dot separator. -/
def notDot (c : Char) : Bool := decide (c ≠ '.')

/-- Python `s.split(".", 1)`: split on the first dot only.  Yields a
two-element list when `s` contains a dot and `[s]` otherwise. -/
def splitDotOnce (s : String) : List String :=
  if s.toList.contains '.' then
    [String.mk (s.toList.takeWhile notDot),
     String.mk ((s.toList.dropWhile notDot).tail)]
  else [s]

/-- A string containing no dot separator. -/
def dotFree (s : String) : Prop := ∀ c ∈ s.toList, c ≠ '.'

/-! ## Sensor values (`src/sensor_sim.py`) -/

/-- Value stored in a `SensorData.data` dict.  `pyFloat` / `pyInt` cover
numeric scalars (a numeric string behaves like `pyFloat` of its parse,
since the engine only ever observes the value through `float(...)`);
`pyNone` is Python `None`; `pyOther` is any value on which `float(...)`
raises `TypeError` or `ValueError` (lists, tuples, non-numeric
strings). -/
inductive PyVal where
  | pyFloat : ℝ → PyVal
  | pyInt : ℤ → PyVal
  | pyNone : PyVal
  | pyOther : PyVal

/-- Python `float(value)` under `try/except (TypeError, ValueError)`:
`none` models the caught exception. -/
noncomputable def floatOf : PyVal → Option ℝ
  | PyVal.pyFloat r => some r
  | PyVal.pyInt n => some (n : ℝ)
  | PyVal.pyNone => none
  | PyVal.pyOther => none

/-- Immutable envelope for one sensor reading (`SensorData`). -/
structure SensorData where
  timestamp : ℝ
  sensor_type : String
  data : List (String × PyVal)

/-! ## Mapping rules and transforms (`src/mapping.py`) -/

/-- Declarative description of one sensor-to-output mapping
(`MappingRule`). -/
structure MappingRule where
  source_param : String
  target_param : String
  transform : String
  min_out : ℝ
  max_out : ℝ

/-- Scale `value` (assumed 0-1) linearly into `[min_out, max_out]`,
clamping first (`linear_map`). -/
noncomputable def linear_map (value min_out max_out : ℝ) : ℝ :=
  min_out + max 0 (min 1 value) * (max_out - min_out)

/-- Clamp to `[0,1]`, raise to the fixed exponent 2.5, then scale
(`exponential_map`); the real power models Python float `**`. -/
noncomputable def exponential_map (value min_out max_out : ℝ) : ℝ :=
  min_out + max 0 (min 1 value) ^ (2.5 : ℝ) * (max_out - min_out)

/-- Return `max_out` when `value >= 0.5`, otherwise `min_out`
(`threshold_gate`). -/
noncomputable def threshold_gate (value min_out max_out : ℝ) : ℝ :=
  if value ≥ 0.5 then max_out else min_out

/-- Invert the clamped value then scale (`invert`). -/
noncomputable def invert (value min_out max_out : ℝ) : ℝ :=
  min_out + (1 - max 0 (min 1 value)) * (max_out - min_out)

/-- The transform registry `TRANSFORMS` (a dict from name to
function). -/
noncomputable def TRANSFORMS : List (String × (ℝ → ℝ → ℝ → ℝ)) :=
  [("linear", linear_map),
   ("exponential", exponential_map),
   ("threshold", threshold_gate),
   ("invert", invert)]

/-- The dispatch `TRANSFORMS.get(transform_name, linear_map)`. -/
noncomputable def getTransform (name : String) : ℝ → ℝ → ℝ → ℝ :=
  (dget TRANSFORMS name).getD linear_map

/-- Python `round(x, 6)`: round to the nearest multiple of `10⁻⁶`
(tie-breaking and binary-float representation are abstracted away; no
claim depends on them). -/
noncomputable def round6 (x : ℝ) : ℝ :=
  ((round (x * 1000000) : ℤ) : ℝ) / 1000000

/-- Walk a dot-separated path into the data dict
(`MappingEngine._resolve`): require at least two segments, look up the
last segment, treat `None` and a failed `float(...)` as `none`. -/
noncomputable def resolve (data : List (String × PyVal)) (dotpath : String) :
    Option ℝ :=
  let parts := splitDots dotpath
  if parts.length < 2 then none
  else
    match dget data (parts.getLastD "") with
    | none => none
    | some PyVal.pyNone => none
    | some v => floatOf v

/-! ## The smoother and the engine state -/

/-- State of the `MappingEngine`: the shared `smooth_alpha` and, for
each target key, the `_value` of its `_Smoother` (`none` right after
construction, before the first call). -/
structure EngineState where
  smoothAlpha : ℝ
  smoothers : List (String × Option ℝ)

/-- One invocation of `_Smoother.__call__`: first call stores the raw
value, later calls move the state by `alpha * (raw - state)`.  Returns
the emitted value together with the new `_value`. -/
noncomputable def smootherCall (alpha : ℝ) : Option ℝ → ℝ → ℝ × Option ℝ
  | none, raw => (raw, some raw)
  | some v, raw => (v + alpha * (raw - v), some (v + alpha * (raw - v)))

/-- Output of `MappingEngine.apply`: the engine state after the call,
the returned results dict, and the ghost log of smoother invocations
(one entry, the target key, per `_Smoother.__call__` executed). -/
structure ApplyOut where
  state : EngineState
  results : List (String × ℝ)
  touched : List String

/-- The rule's source category: `rule.source_param.split(".")[0]`. -/
def srcCategory (r : MappingRule) : String :=
  (splitDots r.source_param).headD ""

/-- Body of the `for rule in self.rules` loop of `MappingEngine.apply`,
acting on the accumulated state/results/log. -/
noncomputable def applyStep (d : SensorData) (acc : ApplyOut)
    (r : MappingRule) : ApplyOut :=
  if srcCategory r ≠ d.sensor_type then acc
  else
    match resolve d.data r.source_param with
    | none => acc
    | some raw =>
        if r.transform = "smooth" then
          let s0 := (dget acc.state.smoothers r.target_param).getD none
          let c := smootherCall acc.state.smoothAlpha s0 raw
          ⟨⟨acc.state.smoothAlpha,
            dset acc.state.smoothers r.target_param c.2⟩,
           dset acc.results r.target_param
             (round6 (linear_map c.1 r.min_out r.max_out)),
           acc.touched ++ [r.target_param]⟩
        else
          ⟨acc.state,
           dset acc.results r.target_param
             (round6 (getTransform r.transform raw r.min_out r.max_out)),
           acc.touched⟩

namespace MappingEngine

/-- Map one sensor reading to output parameters
(`MappingEngine.apply`): evaluate every rule in order.  The Python
method returns `results`; the engine's mutated `_smoothers` dict is the
`state` field, and `touched` is the ghost smoother-invocation log. -/
noncomputable def apply (rules : List MappingRule) (st : EngineState)
    (d : SensorData) : ApplyOut :=
  rules.foldl (applyStep d) ⟨st, [], []⟩

end MappingEngine

/-! ## Output routing (`src/output.py`) -/

namespace OutputRouter

/-- Body of the bucketing loop of `OutputRouter.route`: split the key
on its first dot, drop it unless that yields exactly two parts and the
first names a registered target, otherwise
`buckets.setdefault(prefix, {})[name] = value`. -/
def bucketStep (tg : List String) (buckets : List (String × List (String × α)))
    (kv : String × α) : List (String × List (String × α)) :=
  match splitDotOnce kv.1 with
  | [cat, name] =>
      if cat ∈ tg then
        dset buckets cat (dset ((dget buckets cat).getD []) name kv.2)
      else buckets
  | _ => buckets

/-- The first loop of `OutputRouter.route`: bucket every parameter. -/
def bucketize (tg : List String) (params : List (String × α)) :
    List (String × List (String × α)) :=
  params.foldl (bucketStep tg) []

/-- The second loop of `OutputRouter.route`: for every bucket, call the
matching target's `send`, which replaces its `last_params` with a copy
of the bucket. -/
def sendAll (reg : List (String × List (String × α)))
    (buckets : List (String × List (String × α))) :
    List (String × List (String × α)) :=
  buckets.foldl (fun r pb => dset r pb.1 pb.2) reg

/-- Route `params` to targets based on their key prefixes
(`OutputRouter.route`).  `reg` is the router's `_targets` dict,
reduced to each target's `last_params`; the result is the updated
registry paired with the bucket dict the Python method returns. -/
def route (reg : List (String × List (String × α)))
    (params : List (String × α)) :
    List (String × List (String × α)) × List (String × List (String × α)) :=
  let buckets := bucketize (reg.map Prod.fst) params
  (sendAll reg buckets, buckets)

end OutputRouter

/-- Nested lookup into a bucket structure. -/
def dget2 (bs : List (String × List (String × α))) (cat name : String) :
    Option α :=
  match dget bs cat with
  | none => none
  | some b => dget b name

/-- Observation predicate: the bucketing loop of `OutputRouter.route`
stores the entry `kv` under category `cat` and bare key `name` (its key
splits to `[cat, name]` and `cat` is a registered target). -/
def contribB (tg : List String) (cat name : String) (kv : String × α) : Bool :=
  decide (splitDotOnce kv.1 = [cat, name] ∧ cat ∈ tg)

/-- Observation predicate: rule `r` fires for reading `d` with the
`smooth` transform aimed at target key `k` — exactly the condition
under which `MappingEngine.apply` invokes the smoother for `k`. -/
noncomputable def firesSmoothB (d : SensorData) (k : String)
    (r : MappingRule) : Bool :=
  decide (srcCategory r = d.sensor_type ∧ (resolve d.data r.source_param).isSome
    ∧ r.transform = "smooth" ∧ r.target_param = k)

/-- Concrete flat parameter dict used to exercise the router claims. -/
def wParams : List (String × ℕ) :=
  [("visual.brightness", 3), ("noprefix", 4), ("bogus.x", 5), ("visual.", 9)]

/-- Concrete router registry (categories with their `last_params`)
used to exercise the router claims. -/
def wReg : List (String × List (String × ℕ)) :=
  [("visual", [("old", 7)]), ("audio", [])]

/-- Concrete linear rule used to exercise the engine claims. -/
noncomputable def wRuleLin : MappingRule :=
  ⟨"depth.avg_depth", "visual.brightness", "linear", 0, 1⟩

/-- Concrete rule with an unregistered transform name. -/
noncomputable def wRuleUnknown : MappingRule :=
  ⟨"depth.avg_depth", "visual.brightness", "wibble", 0, 1⟩

/-- Concrete smoothing rule (first of two on a shared target). -/
noncomputable def wRuleSmooth1 : MappingRule :=
  ⟨"depth.a", "visual.s", "smooth", 0, 1⟩

/-- Concrete smoothing rule (second of two on a shared target). -/
noncomputable def wRuleSmooth2 : MappingRule :=
  ⟨"depth.b", "visual.s", "smooth", 0, 1⟩

/-- Concrete rule whose source path has no dot separator. -/
noncomputable def wRuleNoDot : MappingRule :=
  ⟨"depth", "visual.x", "linear", 0, 1⟩

/-- Concrete rule whose target path has no dot separator. -/
noncomputable def wRuleBright : MappingRule :=
  ⟨"depth.avg_depth", "brightness", "linear", 0, 1⟩

/-- Concrete depth reading used to exercise the engine claims. -/
noncomputable def wData : SensorData :=
  ⟨0, "depth",
   [("avg_depth", PyVal.pyFloat (1/2)), ("a", PyVal.pyFloat 0),
    ("b", PyVal.pyFloat 1)]⟩

/-- Concrete reading of a different sensor type. -/
noncomputable def wDataLidar : SensorData := ⟨0, "lidar", []⟩

/-- Concrete fresh engine state with `smooth_alpha = 1/2`. -/
noncomputable def wState : EngineState := ⟨1/2, []⟩

/-- Concrete empty loop accumulator over `wState`. -/
noncomputable def wAcc : ApplyOut := ⟨wState, [], []⟩

/-! ## Basic facts about the dict model -/

theorem dget_dset_self (l : List (String × α)) (k : String) (v : α) :
    dget (dset l k v) k = some v := by
  induction l with
  | nil => simp [dget, dset]
  | cons hd tl ih =>
      obtain ⟨k0, v0⟩ := hd
      by_cases h : k0 = k
      · simp [dget, dset, h]
      · simp [dget, dset, h, ih]

theorem dget_dset_ne (l : List (String × α)) (k k' : String) (v : α)
    (h : k ≠ k') : dget (dset l k v) k' = dget l k' := by
  induction l with
  | nil => simp [dget, dset, h]
  | cons hd tl ih =>
      obtain ⟨k0, v0⟩ := hd
      by_cases h0 : k0 = k
      · subst h0
        simp [dget, dset, h]
      · simp only [dset, if_neg h0, dget]
        by_cases h1 : k0 = k'
        · simp [h1]
        · simp [h1, ih]

theorem dset_ne_nil (l : List (String × α)) (k : String) (v : α) :
    dset l k v ≠ [] := by
  cases l with
  | nil => simp [dset]
  | cons hd tl =>
      obtain ⟨k0, v0⟩ := hd
      by_cases h : k0 = k <;> simp [dset, h]

theorem keys_dset_of_mem (l : List (String × α)) (k : String) (v : α)
    (h : k ∈ l.map Prod.fst) :
    (dset l k v).map Prod.fst = l.map Prod.fst := by
  induction l with
  | nil => simp at h
  | cons hd tl ih =>
      obtain ⟨k0, v0⟩ := hd
      by_cases h0 : k0 = k
      · simp [dset, h0]
      · simp only [List.map_cons, List.mem_cons] at h
        rcases h with h | h
        · exact absurd h.symm h0
        · simp [dset, h0, ih h]

theorem keys_dset_of_not_mem (l : List (String × α)) (k : String) (v : α)
    (h : k ∉ l.map Prod.fst) :
    (dset l k v).map Prod.fst = l.map Prod.fst ++ [k] := by
  induction l with
  | nil => simp [dset]
  | cons hd tl ih =>
      obtain ⟨k0, v0⟩ := hd
      simp only [List.map_cons, List.mem_cons] at h
      push_neg at h
      simp [dset, Ne.symm h.1, ih h.2]

theorem nodupKeys_dset (l : List (String × α)) (k : String) (v : α)
    (h : NodupKeys l) : NodupKeys (dset l k v) := by
  by_cases hm : k ∈ l.map Prod.fst
  · unfold NodupKeys
    rw [keys_dset_of_mem l k v hm]
    exact h
  · unfold NodupKeys
    rw [keys_dset_of_not_mem l k v hm, List.nodup_append]
    refine ⟨h, List.nodup_singleton k, ?_⟩
    intro a ha hb
    rw [List.mem_singleton] at hb
    subst hb
    exact hm ha

theorem dget_eq_some_of_mem (l : List (String × α)) (k : String) (v : α)
    (hnd : NodupKeys l) (hm : (k, v) ∈ l) : dget l k = some v := by
  induction l with
  | nil => simp at hm
  | cons hd tl ih =>
      obtain ⟨k0, v0⟩ := hd
      unfold NodupKeys at hnd
      simp only [List.map_cons, List.nodup_cons] at hnd
      rcases List.mem_cons.1 hm with h | h
      · rw [Prod.ext_iff] at h
        obtain ⟨hk, hv⟩ := h
        subst hk
        subst hv
        simp [dget]
      · have hk : k0 ≠ k := by
          intro he
          subst he
          exact hnd.1 (List.mem_map.2 ⟨(k0, v), h, rfl⟩)
        simp [dget, hk, ih hnd.2 h]

theorem mem_of_dget_eq_some (l : List (String × α)) (k : String) (v : α)
    (h : dget l k = some v) : (k, v) ∈ l := by
  induction l with
  | nil => simp [dget] at h
  | cons hd tl ih =>
      obtain ⟨k0, v0⟩ := hd
      by_cases h0 : k0 = k
      · subst h0
        simp only [dget] at h
        simp only [if_pos trivial, Option.some.injEq] at h
        subst h
        exact List.mem_cons_self _ _
      · simp only [dget, if_neg h0] at h
        exact List.mem_cons_of_mem _ (ih h)

theorem dset_same (l : List (String × α)) (k : String) (v : α)
    (h : dget l k = some v) : dset l k v = l := by
  induction l with
  | nil => simp [dget] at h
  | cons hd tl ih =>
      obtain ⟨k0, v0⟩ := hd
      by_cases h0 : k0 = k
      · subst h0
        simp only [dget] at h
        simp only [if_pos trivial, Option.some.injEq] at h
        simp [dset, h]
      · simp only [dget, if_neg h0] at h
        simp [dset, h0, ih h]

theorem mem_keys_of_dget_isSome (l : List (String × α)) (k : String)
    (h : (dget l k).isSome) : k ∈ l.map Prod.fst := by
  induction l with
  | nil => simp [dget] at h
  | cons hd tl ih =>
      obtain ⟨k0, v0⟩ := hd
      by_cases h0 : k0 = k
      · simp [h0]
      · simp only [dget, if_neg h0] at h
        simp [ih h]

theorem dget_none_of_not_mem_keys (l : List (String × α)) (k : String)
    (h : k ∉ l.map Prod.fst) : dget l k = none := by
  induction l with
  | nil => simp [dget]
  | cons hd tl ih =>
      obtain ⟨k0, v0⟩ := hd
      simp only [List.map_cons, List.mem_cons] at h
      push_neg at h
      simp [dget, Ne.symm h.1, ih h.2]

/-! ## Facts about dot-path splitting -/

theorem splitOnDotAux_no_dot (cs : List Char) :
    ∀ acc : List Char, (∀ c ∈ cs, c ≠ '.') →
      splitOnDotAux cs acc = [acc.reverse ++ cs] := by
  induction cs with
  | nil => intro acc _; simp [splitOnDotAux]
  | cons c cs ih =>
      intro acc h
      have hc : c ≠ '.' := h c (List.mem_cons_self _ _)
      rw [splitOnDotAux, if_neg hc, ih (c :: acc) (fun x hx => h x (List.mem_cons_of_mem _ hx))]
      simp

theorem splitDots_of_dotFree (s : String) (h : dotFree s) :
    splitDots s = [s] := by
  unfold splitDots
  rw [splitOnDotAux_no_dot s.toList [] h]
  simp

theorem takeWhile_notDot_of_all (a : List Char) (h : ∀ c ∈ a, c ≠ '.') :
    ∀ b : List Char, (a ++ '.' :: b).takeWhile notDot = a ∧
      (a ++ '.' :: b).dropWhile notDot = '.' :: b := by
  induction a with
  | nil =>
      intro b
      constructor <;> simp [List.takeWhile, List.dropWhile, notDot]
  | cons c cs ih =>
      intro b
      have hc : c ≠ '.' := h c (List.mem_cons_self _ _)
      have hcb : notDot c = true := by simp [notDot, hc]
      have ihb := ih (fun x hx => h x (List.mem_cons_of_mem _ hx)) b
      constructor
      · simp only [List.cons_append, List.takeWhile_cons, hcb, if_true]
        rw [ihb.1]
      · simp only [List.cons_append, List.dropWhile_cons, hcb, if_true]
        exact ihb.2

theorem dropWhile_notDot_of_mem (l : List Char) (hc : '.' ∈ l) :
    l.dropWhile notDot = '.' :: (l.dropWhile notDot).tail := by
  induction l with
  | nil => simp at hc
  | cons c cs ih =>
      by_cases h : c = '.'
      · subst h
        simp [List.dropWhile_cons, notDot]
      · have hb : notDot c = true := by simp [notDot, h]
        have hm : '.' ∈ cs := by
          rcases List.mem_cons.1 hc with h1 | h1
          · exact absurd h1.symm h
          · exact h1
        simp only [List.dropWhile_cons, hb, if_true]
        exact ih hm

theorem splitDotOnce_append (a b : String) (h : dotFree a) :
    splitDotOnce (a ++ "." ++ b) = [a, b] := by
  have hdata : (a ++ "." ++ b).toList = a.toList ++ '.' :: b.toList := by
    have h0 : (a ++ "." ++ b).toList = (a.toList ++ ['.']) ++ b.toList := rfl
    rw [h0]
    simp
  have hmem : '.' ∈ (a ++ "." ++ b).toList := by
    rw [hdata]; simp
  have hcont : (a ++ "." ++ b).toList.contains '.' = true := by
    simp [List.contains, hmem]
  unfold splitDotOnce
  rw [if_pos hcont, hdata]
  have htw := takeWhile_notDot_of_all a.toList h b.toList
  rw [htw.1, htw.2]
  simp

theorem splitDotOnce_eq_pair (s a b : String)
    (h : splitDotOnce s = [a, b]) : s = a ++ "." ++ b ∧ dotFree a := by
  unfold splitDotOnce at h
  by_cases hc : s.toList.contains '.' = true
  · rw [if_pos hc] at h
    have hmem : '.' ∈ s.toList := by simpa [List.contains] using hc
    have hdw := dropWhile_notDot_of_mem s.toList hmem
    have hsplit : s.toList = s.toList.takeWhile notDot ++ s.toList.dropWhile notDot :=
      (List.takeWhile_append_dropWhile ..).symm
    simp only [List.cons.injEq, and_true] at h
    obtain ⟨ha, hb⟩ := h
    constructor
    · apply String.ext
      show s.toList = (a ++ "." ++ b).toList
      have h0 : (a ++ "." ++ b).toList = (a.toList ++ ['.']) ++ b.toList := rfl
      rw [h0, List.append_assoc, List.singleton_append, ← ha, ← hb]
      show s.toList = s.toList.takeWhile notDot ++ '.' :: (s.toList.dropWhile notDot).tail
      rw [← hdw]
      exact hsplit
    · intro c hcm
      rw [← ha] at hcm
      have := List.mem_takeWhile_imp hcm
      simpa [notDot] using this
  · rw [if_neg hc] at h
    simp at h


/-! ## Facts about the bucketing loop of the router -/

theorem mem_dset (l : List (String × α)) (k : String) (v : α) (x : String × α)
    (h : x ∈ dset l k v) : x ∈ l ∨ x = (k, v) := by
  induction l with
  | nil => simpa [dset] using h
  | cons hd tl ih =>
      obtain ⟨k0, v0⟩ := hd
      by_cases h0 : k0 = k
      · simp only [dset, if_pos h0] at h
        rcases List.mem_cons.1 h with h1 | h1
        · right; rw [h1, h0]
        · left; exact List.mem_cons_of_mem _ h1
      · simp only [dset, if_neg h0] at h
        rcases List.mem_cons.1 h with h1 | h1
        · left; rw [h1]; exact List.mem_cons_self _ _
        · rcases ih h1 with h2 | h2
          · left; exact List.mem_cons_of_mem _ h2
          · right; exact h2

theorem contribB_eq_true_iff {α : Type} (tg : List String) (cat name : String)
    (kv : String × α) :
    contribB tg cat name kv = true ↔
      splitDotOnce kv.1 = [cat, name] ∧ cat ∈ tg := by
  simp [contribB]

namespace OutputRouter

theorem dget2_eq_getD {α : Type} (bs : List (String × List (String × α)))
    (cat name : String) :
    dget2 bs cat name = dget ((dget bs cat).getD []) name := by
  unfold dget2
  cases h : dget bs cat with
  | none => simp [dget]
  | some b => simp

theorem dget2_dset_bucket {α : Type} (bs : List (String × List (String × α)))
    (a b : String) (v : α) (cat name : String) :
    dget2 (dset bs a (dset ((dget bs a).getD []) b v)) cat name =
      if a = cat ∧ b = name then some v else dget2 bs cat name := by
  rw [dget2_eq_getD, dget2_eq_getD]
  by_cases hca : a = cat
  · subst hca
    rw [dget_dset_self]
    simp only [Option.getD_some]
    by_cases hcb : b = name
    · subst hcb
      rw [dget_dset_self]
      simp
    · rw [dget_dset_ne _ _ _ _ hcb]
      simp [hcb]
  · rw [dget_dset_ne _ _ _ _ hca]
    simp [hca]

theorem dget2_bucketStep {α : Type} (tg : List String)
    (bs : List (String × List (String × α))) (kv : String × α)
    (cat name : String) :
    dget2 (bucketStep tg bs kv) cat name =
      if contribB tg cat name kv then some kv.2 else dget2 bs cat name := by
  rcases h : splitDotOnce kv.1 with _ | ⟨a, _ | ⟨b, _ | _⟩⟩
  · simp [bucketStep, h, contribB]
  · simp [bucketStep, h, contribB]
  · have hstep : bucketStep tg bs kv =
        if a ∈ tg then dset bs a (dset ((dget bs a).getD []) b kv.2)
        else bs := by
      simp only [bucketStep, h]
    by_cases hm : a ∈ tg
    · rw [hstep, if_pos hm, dget2_dset_bucket]
      by_cases hab : a = cat ∧ b = name
      · rw [if_pos hab]
        have hc : contribB tg cat name kv = true := by
          simp only [contribB, decide_eq_true_eq]
          refine ⟨by rw [h, hab.1, hab.2], ?_⟩
          rw [← hab.1]
          exact hm
        rw [hc]
        simp
      · rw [if_neg hab]
        have hc : contribB tg cat name kv = false := by
          simp only [contribB, decide_eq_false_iff_not]
          rintro ⟨hsp, hmem⟩
          rw [h] at hsp
          have hab2 : a = cat ∧ b = name := by
            simpa using hsp
          exact hab hab2
        rw [hc]
        simp
    · rw [hstep, if_neg hm]
      have hc : contribB tg cat name kv = false := by
        simp only [contribB, decide_eq_false_iff_not]
        rintro ⟨hsp, hmem⟩
        rw [h] at hsp
        have hab2 : a = cat ∧ b = name := by
          simpa using hsp
        rw [← hab2.1] at hmem
        exact hm hmem
      rw [hc]
      simp
  · simp [bucketStep, h, contribB]

theorem dget2_bucketize_foldl {α : Type} (tg : List String)
    (params : List (String × α)) :
    ∀ (acc : List (String × List (String × α))) (cat name : String),
      dget2 (params.foldl (bucketStep tg) acc) cat name =
        params.foldl
          (fun o kv => if contribB tg cat name kv then some kv.2 else o)
          (dget2 acc cat name) := by
  induction params with
  | nil => intro acc cat name; simp
  | cons kv rest ih =>
      intro acc cat name
      rw [List.foldl_cons, List.foldl_cons, ih, dget2_bucketStep]

theorem foldl_update_of_no_contrib {α : Type} (tg : List String)
    (cat name : String) (params : List (String × α)) (o : Option α)
    (h : ∀ kv ∈ params, contribB tg cat name kv = false) :
    params.foldl (fun o kv => if contribB tg cat name kv then some kv.2 else o)
      o = o := by
  induction params generalizing o with
  | nil => simp
  | cons kv rest ih =>
      rw [List.foldl_cons]
      have h0 := h kv (List.mem_cons_self _ _)
      rw [h0]
      simp only [Bool.false_eq_true, if_false]
      exact ih o (fun x hx => h x (List.mem_cons_of_mem _ hx))

theorem foldl_update_eq_some_iff {α : Type} (tg : List String)
    (cat name : String) (params : List (String × α)) (v : α)
    (hcount : params.countP (contribB tg cat name) ≤ 1) :
    params.foldl (fun o kv => if contribB tg cat name kv then some kv.2 else o)
        none = some v ↔
      ∃ kv, kv ∈ params ∧ contribB tg cat name kv = true ∧ kv.2 = v := by
  induction params with
  | nil => simp
  | cons kv rest ih =>
      rw [List.countP_cons] at hcount
      rw [List.foldl_cons]
      by_cases hk : contribB tg cat name kv = true
      · have hz : rest.countP (contribB tg cat name) = 0 := by
          have h1 : (1 : ℕ) ≤ if contribB tg cat name kv = true then 1 else 0 := by
            rw [if_pos hk]
          omega
        have hall : ∀ x ∈ rest, contribB tg cat name x = false := by
          intro x hx
          by_contra hcon
          have hxt : contribB tg cat name x = true := by
            cases hb : contribB tg cat name x
            · exact absurd hb hcon
            · rfl
          have hpos := List.countP_pos_iff.2 ⟨x, hx, hxt⟩
          omega
        rw [hk]
        simp only [if_true]
        rw [foldl_update_of_no_contrib tg cat name rest (some kv.2) hall]
        constructor
        · intro h
          exact ⟨kv, List.mem_cons_self _ _, hk, by injection h⟩
        · rintro ⟨kv', hmem, hc', hv⟩
          rcases List.mem_cons.1 hmem with h1 | h1
          · subst h1; rw [hv]
          · rw [hall kv' h1] at hc'
            exact absurd hc' (by simp)
      · have hkf : contribB tg cat name kv = false := by
          cases hb : contribB tg cat name kv
          · rfl
          · exact absurd hb hk
        rw [hkf]
        simp only [Bool.false_eq_true, if_false]
        have hcount' : rest.countP (contribB tg cat name) ≤ 1 := by
          omega
        rw [ih hcount']
        constructor
        · rintro ⟨kv', hmem, hc', hv⟩
          exact ⟨kv', List.mem_cons_of_mem _ hmem, hc', hv⟩
        · rintro ⟨kv', hmem, hc', hv⟩
          rcases List.mem_cons.1 hmem with h1 | h1
          · subst h1; exact absurd hc' (by simp [hkf])
          · exact ⟨kv', h1, hc', hv⟩

theorem countP_contrib_le_one {α : Type} (tg : List String)
    (cat name : String) (params : List (String × α))
    (hnd : NodupKeys params) :
    params.countP (contribB tg cat name) ≤ 1 := by
  have hmono : params.countP (contribB tg cat name) ≤
      params.countP (fun kv => kv.1 == cat ++ "." ++ name) := by
    apply List.countP_mono_left
    intro kv _ hc
    have h1 := (contribB_eq_true_iff tg cat name kv).1 hc
    have h2 := splitDotOnce_eq_pair kv.1 cat name h1.1
    simp [h2.1]
  have hmap : params.countP (fun kv => kv.1 == cat ++ "." ++ name) =
      (params.map Prod.fst).count (cat ++ "." ++ name) := by
    rw [List.count, List.countP_map]
    rfl
  have hle : (params.map Prod.fst).count (cat ++ "." ++ name) ≤ 1 :=
    List.nodup_iff_count_le_one.1 hnd _
  omega

end OutputRouter

namespace OutputRouter

theorem bucketStep_preserves {α : Type} (tg : List String)
    (bs : List (String × List (String × α))) (kv : String × α)
    (hnd : NodupKeys bs) (hne : ∀ pb ∈ bs, pb.2 ≠ [])
    (htg : ∀ pb ∈ bs, pb.1 ∈ tg) :
    NodupKeys (bucketStep tg bs kv) ∧
      (∀ pb ∈ bucketStep tg bs kv, pb.2 ≠ []) ∧
      (∀ pb ∈ bucketStep tg bs kv, pb.1 ∈ tg) := by
  rcases h : splitDotOnce kv.1 with _ | ⟨a, _ | ⟨b, _ | _⟩⟩
  · simp only [bucketStep, h]
    exact ⟨hnd, hne, htg⟩
  · simp only [bucketStep, h]
    exact ⟨hnd, hne, htg⟩
  · simp only [bucketStep, h]
    by_cases hm : a ∈ tg
    · rw [if_pos hm]
      refine ⟨nodupKeys_dset _ _ _ hnd, ?_, ?_⟩
      · intro pb hpb
        rcases mem_dset _ _ _ _ hpb with h1 | h1
        · exact hne pb h1
        · rw [h1]
          exact dset_ne_nil _ _ _
      · intro pb hpb
        rcases mem_dset _ _ _ _ hpb with h1 | h1
        · exact htg pb h1
        · rw [h1]
          exact hm
    · rw [if_neg hm]
      exact ⟨hnd, hne, htg⟩
  · simp only [bucketStep, h]
    exact ⟨hnd, hne, htg⟩

theorem bucketize_foldl_invariant {α : Type} (tg : List String)
    (params : List (String × α)) :
    ∀ acc : List (String × List (String × α)),
      NodupKeys acc → (∀ pb ∈ acc, pb.2 ≠ []) → (∀ pb ∈ acc, pb.1 ∈ tg) →
      NodupKeys (params.foldl (bucketStep tg) acc) ∧
        (∀ pb ∈ params.foldl (bucketStep tg) acc, pb.2 ≠ []) ∧
        (∀ pb ∈ params.foldl (bucketStep tg) acc, pb.1 ∈ tg) := by
  induction params with
  | nil => intro acc h1 h2 h3; exact ⟨h1, h2, h3⟩
  | cons kv rest ih =>
      intro acc h1 h2 h3
      rw [List.foldl_cons]
      have hs := bucketStep_preserves tg acc kv h1 h2 h3
      exact ih (bucketStep tg acc kv) hs.1 hs.2.1 hs.2.2

theorem bucketize_invariant {α : Type} (tg : List String)
    (params : List (String × α)) :
    NodupKeys (bucketize tg params) ∧
      (∀ pb ∈ bucketize tg params, pb.2 ≠ []) ∧
      (∀ pb ∈ bucketize tg params, pb.1 ∈ tg) := by
  unfold bucketize
  refine bucketize_foldl_invariant tg params [] ?_ ?_ ?_
  · exact List.nodup_nil
  · intro pb hpb; simp at hpb
  · intro pb hpb; simp at hpb

theorem dget2_bucketize_iff {α : Type} (tg : List String)
    (params : List (String × α)) (hnd : NodupKeys params)
    (cat name : String) (v : α) :
    dget2 (bucketize tg params) cat name = some v ↔
      ∃ k, (k, v) ∈ params ∧ splitDotOnce k = [cat, name] ∧ cat ∈ tg := by
  unfold bucketize
  rw [dget2_bucketize_foldl]
  have hbase : dget2 ([] : List (String × List (String × α))) cat name = none := by
    simp [dget2, dget]
  rw [hbase]
  rw [foldl_update_eq_some_iff tg cat name params v
    (countP_contrib_le_one tg cat name params hnd)]
  constructor
  · rintro ⟨kv, hmem, hc, hv⟩
    have h1 := (contribB_eq_true_iff tg cat name kv).1 hc
    refine ⟨kv.1, ?_, h1.1, h1.2⟩
    rw [← hv]
    exact hmem
  · rintro ⟨k, hmem, hsp, hcat⟩
    refine ⟨(k, v), hmem, ?_, rfl⟩
    exact (contribB_eq_true_iff tg cat name (k, v)).2 ⟨hsp, hcat⟩

/-! ## Facts about the send loop of the router -/

theorem dget_sendAll {α : Type} (buckets : List (String × List (String × α))) :
    ∀ (reg : List (String × List (String × α))) (c : String),
      NodupKeys buckets →
      dget (sendAll reg buckets) c = (dget buckets c).or (dget reg c) := by
  induction buckets with
  | nil => intro reg c _; simp [sendAll, dget]
  | cons pb rest ih =>
      intro reg c hnd
      obtain ⟨k, b⟩ := pb
      unfold NodupKeys at hnd
      simp only [List.map_cons, List.nodup_cons] at hnd
      have hstep : sendAll reg ((k, b) :: rest) = sendAll (dset reg k b) rest := by
        simp [sendAll]
      rw [hstep, ih (dset reg k b) c hnd.2]
      by_cases hc : k = c
      · subst hc
        have hrest : dget rest k = none :=
          dget_none_of_not_mem_keys rest k hnd.1
        rw [hrest, dget_dset_self]
        simp [dget]
      · rw [dget_dset_ne _ _ _ _ hc]
        simp [dget, hc]

theorem sendAll_id {α : Type} (buckets : List (String × List (String × α))) :
    ∀ reg : List (String × List (String × α)),
      (∀ pb ∈ buckets, dget reg pb.1 = some pb.2) → sendAll reg buckets = reg := by
  induction buckets with
  | nil => intro reg _; simp [sendAll]
  | cons pb rest ih =>
      intro reg h
      obtain ⟨k, b⟩ := pb
      have hstep : sendAll reg ((k, b) :: rest) = sendAll (dset reg k b) rest := by
        simp [sendAll]
      rw [hstep]
      have hkb : dget reg k = some b := h (k, b) (List.mem_cons_self _ _)
      rw [dset_same reg k b hkb]
      exact ih reg (fun x hx => h x (List.mem_cons_of_mem _ hx))

theorem keys_sendAll {α : Type} (buckets : List (String × List (String × α))) :
    ∀ reg : List (String × List (String × α)),
      (∀ pb ∈ buckets, pb.1 ∈ reg.map Prod.fst) →
      (sendAll reg buckets).map Prod.fst = reg.map Prod.fst := by
  induction buckets with
  | nil => intro reg _; simp [sendAll]
  | cons pb rest ih =>
      intro reg h
      obtain ⟨k, b⟩ := pb
      have hstep : sendAll reg ((k, b) :: rest) = sendAll (dset reg k b) rest := by
        simp [sendAll]
      rw [hstep]
      have hk : k ∈ reg.map Prod.fst := h (k, b) (List.mem_cons_self _ _)
      have hkeys : (dset reg k b).map Prod.fst = reg.map Prod.fst :=
        keys_dset_of_mem reg k b hk
      rw [ih (dset reg k b) (fun x hx => by
        rw [hkeys]
        exact h x (List.mem_cons_of_mem _ hx))]
      exact hkeys

end OutputRouter

/-! ## Claims C4, C7 and C10: the router -/

/-- C4.  `OutputRouter.route`, for every flat params dict: each key is
split on its first dot; keys with no dot, and keys whose category
matches no registered target, contribute nothing; every remaining
entry lands in the bucket of its category under the prefix-stripped
bare key (last write wins, and the correspondence is exact); buckets
are never empty; each bucketed category occurs at most once in the
bucket dict (so its target receives exactly one `send`, whose payload
becomes its `last_params`); and a category with no bucket receives no
`send`, its `last_params` staying untouched.  The last conjunct states
both delivery facts at once: the updated registry holds the bucket
where one exists and the old entry otherwise. -/
theorem C4_route_bucketing {α : Type} (reg : List (String × List (String × α)))
    (params : List (String × α)) (hnd : NodupKeys params)
    (cat bare : String) (v : α) :
    (dget2 (OutputRouter.route reg params).2 cat bare = some v ↔
      ∃ k, (k, v) ∈ params ∧ splitDotOnce k = [cat, bare] ∧
        cat ∈ reg.map Prod.fst)
    ∧ dget (OutputRouter.route reg params).2 cat ≠ some []
    ∧ ((OutputRouter.route reg params).2.map Prod.fst).count cat ≤ 1
    ∧ dget (OutputRouter.route reg params).1 cat =
        ((dget (OutputRouter.route reg params).2 cat).or (dget reg cat)) := by
  have hinv := OutputRouter.bucketize_invariant (reg.map Prod.fst) params (α := α)
  refine ⟨?_, ?_, ?_, ?_⟩
  · exact OutputRouter.dget2_bucketize_iff (reg.map Prod.fst) params hnd cat bare v
  · intro h
    have hmem := mem_of_dget_eq_some _ _ _ h
    exact hinv.2.1 (cat, []) hmem rfl
  · exact List.nodup_iff_count_le_one.1 hinv.1 cat
  · exact OutputRouter.dget_sendAll _ reg cat hinv.1

/-- Witness for C4 at a concrete registry and parameter dict. -/
theorem C4_route_bucketing_witness :
    NodupKeys wParams ∧
    ((dget2 (OutputRouter.route wReg wParams).2 "visual" "brightness" = some 3 ↔
      ∃ k, (k, 3) ∈ wParams ∧ splitDotOnce k = ["visual", "brightness"] ∧
        "visual" ∈ wReg.map Prod.fst)
    ∧ dget (OutputRouter.route wReg wParams).2 "visual" ≠ some []
    ∧ ((OutputRouter.route wReg wParams).2.map Prod.fst).count "visual" ≤ 1
    ∧ dget (OutputRouter.route wReg wParams).1 "visual" =
        ((dget (OutputRouter.route wReg wParams).2 "visual").or
          (dget wReg "visual"))) :=
  ⟨by unfold NodupKeys wParams; decide,
   C4_route_bucketing wReg wParams (by unfold NodupKeys wParams; decide)
     "visual" "brightness" 3⟩

/-- C7.  Routing is idempotent: routing the same flat parameter dict
twice returns the same bucket structure both times and leaves every
target's `last_params` (the registry) unchanged by the second call. -/
theorem C7_route_idempotent {α : Type} (reg : List (String × List (String × α)))
    (params : List (String × α)) :
    (OutputRouter.route (OutputRouter.route reg params).1 params).2 =
      (OutputRouter.route reg params).2 ∧
    (OutputRouter.route (OutputRouter.route reg params).1 params).1 =
      (OutputRouter.route reg params).1 := by
  have hinv := OutputRouter.bucketize_invariant (reg.map Prod.fst) params (α := α)
  have hkeys : ((OutputRouter.route reg params).1).map Prod.fst = reg.map Prod.fst := by
    exact OutputRouter.keys_sendAll _ reg (fun pb hpb => hinv.2.2 pb hpb)
  have hb2 : (OutputRouter.route (OutputRouter.route reg params).1 params).2 =
      (OutputRouter.route reg params).2 := by
    show OutputRouter.bucketize (((OutputRouter.route reg params).1).map Prod.fst) params =
      OutputRouter.bucketize (reg.map Prod.fst) params
    rw [hkeys]
  refine ⟨hb2, ?_⟩
  show OutputRouter.sendAll (OutputRouter.route reg params).1
      (OutputRouter.bucketize (((OutputRouter.route reg params).1).map Prod.fst) params) =
    (OutputRouter.route reg params).1
  rw [hkeys]
  apply OutputRouter.sendAll_id
  intro pb hpb
  obtain ⟨c, bk⟩ := pb
  have hsome : dget (OutputRouter.bucketize (reg.map Prod.fst) params) c = some bk :=
    dget_eq_some_of_mem _ c bk hinv.1 hpb
  show dget (OutputRouter.sendAll reg (OutputRouter.bucketize (reg.map Prod.fst) params)) c = some bk
  rw [OutputRouter.dget_sendAll _ reg c hinv.1, hsome]
  rfl

/-- C10.  A key that is a registered (dot-free) category name followed
by a bare trailing dot is not dropped: its value lands in that
category's bucket under the empty-string bare key, shows up in the
returned structure, and is delivered to the target by `send` (the
updated registry holds exactly that bucket). -/
theorem C10_trailing_dot_key {α : Type} (reg : List (String × List (String × α)))
    (params : List (String × α)) (c : String) (v : α)
    (hnd : NodupKeys params) (hc : dotFree c) (hreg : c ∈ reg.map Prod.fst)
    (hmem : (c ++ ".", v) ∈ params) :
    dget2 (OutputRouter.route reg params).2 c "" = some v ∧
    (dget (OutputRouter.route reg params).2 c).isSome ∧
    dget (OutputRouter.route reg params).1 c =
      dget (OutputRouter.route reg params).2 c := by
  have hinv := OutputRouter.bucketize_invariant (reg.map Prod.fst) params (α := α)
  have happ : c ++ "." ++ "" = c ++ "." := by
    apply String.ext
    show (c.toList ++ ['.']) ++ [] = c.toList ++ ['.']
    simp
  have hsp : splitDotOnce (c ++ ".") = [c, ""] := by
    rw [← happ]
    exact splitDotOnce_append c "" hc
  have h1 : dget2 (OutputRouter.route reg params).2 c "" = some v :=
    (OutputRouter.dget2_bucketize_iff (reg.map Prod.fst) params hnd c "" v).2
      ⟨c ++ ".", hmem, hsp, hreg⟩
  have h2 : (dget (OutputRouter.route reg params).2 c).isSome := by
    unfold dget2 at h1
    cases hdg : dget (OutputRouter.route reg params).2 c with
    | none =>
        rw [hdg] at h1
        simp at h1
    | some bk => simp
  refine ⟨h1, h2, ?_⟩
  have h3 : dget (OutputRouter.route reg params).1 c =
      ((dget (OutputRouter.route reg params).2 c).or (dget reg c)) :=
    OutputRouter.dget_sendAll _ reg c hinv.1
  rw [h3]
  cases hdg : dget (OutputRouter.route reg params).2 c with
  | none =>
      rw [hdg] at h2
      simp at h2
  | some bk => rfl

/-- Witness for C10: the key `"visual."` with registered category
`"visual"`. -/
theorem C10_trailing_dot_key_witness :
    (NodupKeys wParams ∧ dotFree "visual" ∧ "visual" ∈ wReg.map Prod.fst ∧
      ("visual" ++ ".", 9) ∈ wParams) ∧
    (dget2 (OutputRouter.route wReg wParams).2 "visual" "" = some 9 ∧
    (dget (OutputRouter.route wReg wParams).2 "visual").isSome ∧
    dget (OutputRouter.route wReg wParams).1 "visual" =
      dget (OutputRouter.route wReg wParams).2 "visual") :=
  ⟨⟨by unfold NodupKeys wParams; decide, by unfold dotFree; decide,
    by unfold wReg; decide, by unfold wParams; decide⟩,
   C10_trailing_dot_key wReg wParams "visual" 9
     (by unfold NodupKeys wParams; decide) (by unfold dotFree; decide)
     (by unfold wReg; decide) (by unfold wParams; decide)⟩

/-! ## Equations for one iteration of the mapping loop -/

theorem applyStep_skip_category (d : SensorData) (acc : ApplyOut)
    (r : MappingRule) (h : srcCategory r ≠ d.sensor_type) :
    applyStep d acc r = acc := by
  unfold applyStep
  rw [if_pos h]

theorem applyStep_skip_resolve (d : SensorData) (acc : ApplyOut)
    (r : MappingRule) (h : resolve d.data r.source_param = none) :
    applyStep d acc r = acc := by
  unfold applyStep
  by_cases hcat : srcCategory r ≠ d.sensor_type
  · rw [if_pos hcat]
  · rw [if_neg hcat]
    simp only [h]

theorem applyStep_eq_smooth (d : SensorData) (acc : ApplyOut)
    (r : MappingRule) (raw : ℝ) (hcat : srcCategory r = d.sensor_type)
    (hres : resolve d.data r.source_param = some raw)
    (htr : r.transform = "smooth") :
    applyStep d acc r = ⟨
      ⟨acc.state.smoothAlpha,
       dset acc.state.smoothers r.target_param
         (smootherCall acc.state.smoothAlpha
           ((dget acc.state.smoothers r.target_param).getD none) raw).2⟩,
      dset acc.results r.target_param
        (round6 (linear_map
          (smootherCall acc.state.smoothAlpha
            ((dget acc.state.smoothers r.target_param).getD none) raw).1
          r.min_out r.max_out)),
      acc.touched ++ [r.target_param]⟩ := by
  unfold applyStep
  rw [if_neg (not_not_intro hcat)]
  simp only [hres]
  rw [if_pos htr]

theorem applyStep_eq_table (d : SensorData) (acc : ApplyOut)
    (r : MappingRule) (raw : ℝ) (hcat : srcCategory r = d.sensor_type)
    (hres : resolve d.data r.source_param = some raw)
    (htr : r.transform ≠ "smooth") :
    applyStep d acc r = ⟨acc.state,
      dset acc.results r.target_param
        (round6 (getTransform r.transform raw r.min_out r.max_out)),
      acc.touched⟩ := by
  unfold applyStep
  rw [if_neg (not_not_intro hcat)]
  simp only [hres]
  rw [if_neg htr]

theorem applyStep_results_other (d : SensorData) (acc : ApplyOut)
    (r : MappingRule) (k : String) (hk : k ≠ r.target_param) :
    dget (applyStep d acc r).results k = dget acc.results k := by
  by_cases hcat : srcCategory r ≠ d.sensor_type
  · rw [applyStep_skip_category d acc r hcat]
  · rw [not_ne_iff] at hcat
    cases hres : resolve d.data r.source_param with
    | none => rw [applyStep_skip_resolve d acc r hres]
    | some raw =>
        by_cases htr : r.transform = "smooth"
        · rw [applyStep_eq_smooth d acc r raw hcat hres htr]
          exact dget_dset_ne _ _ _ _ (Ne.symm hk)
        · rw [applyStep_eq_table d acc r raw hcat hres htr]
          exact dget_dset_ne _ _ _ _ (Ne.symm hk)

theorem applyStep_skip_dotFree (d : SensorData) (acc : ApplyOut)
    (r : MappingRule) (h : dotFree r.source_param) :
    applyStep d acc r = acc := by
  have hres : resolve d.data r.source_param = none := by
    unfold resolve
    rw [splitDots_of_dotFree _ h]
    simp
  exact applyStep_skip_resolve d acc r hres

theorem apply_foldl_all_skip (d : SensorData) :
    ∀ rules : List MappingRule,
      (∀ r ∈ rules, srcCategory r ≠ d.sensor_type ∨
        resolve d.data r.source_param = none) →
      ∀ acc : ApplyOut, rules.foldl (applyStep d) acc = acc := by
  intro rules
  induction rules with
  | nil => intro _ acc; rfl
  | cons r rest ih =>
      intro h acc
      rw [List.foldl_cons]
      have hacc : applyStep d acc r = acc := by
        rcases h r (List.mem_cons_self _ _) with h1 | h1
        · exact applyStep_skip_category d acc r h1
        · exact applyStep_skip_resolve d acc r h1
      rw [hacc]
      exact ih (fun x hx => h x (List.mem_cons_of_mem _ hx)) acc

/-! ## The transform dispatch table -/

theorem dget_TRANSFORMS_none (t : String)
    (h : t ∉ (["linear", "exponential", "threshold", "invert"] : List String)) :
    dget TRANSFORMS t = none := by
  have h1 : t ≠ "linear" := fun he => h (by rw [he]; simp)
  have h2 : t ≠ "exponential" := fun he => h (by rw [he]; simp)
  have h3 : t ≠ "threshold" := fun he => h (by rw [he]; simp)
  have h4 : t ≠ "invert" := fun he => h (by rw [he]; simp)
  simp [TRANSFORMS, dget, Ne.symm h1, Ne.symm h2, Ne.symm h3, Ne.symm h4]

theorem getTransform_of_none (t : String) (h : dget TRANSFORMS t = none) :
    getTransform t = linear_map := by
  unfold getTransform
  rw [h]
  rfl

theorem getTransform_linear : getTransform "linear" = linear_map := by
  simp [getTransform, TRANSFORMS, dget]

theorem round6_half : round6 (1/2) = 1/2 := by
  unfold round6
  norm_num [round_eq]

theorem round6_zero : round6 0 = 0 := by
  unfold round6
  norm_num [round_eq]

theorem resolve_wData_avg : resolve wData.data "depth.avg_depth" = some (1/2) := by
  have hsp : splitDots "depth.avg_depth" = ["depth", "avg_depth"] := by decide
  simp [resolve, hsp, wData, dget, floatOf]

theorem resolve_wData_a : resolve wData.data "depth.a" = some 0 := by
  have hsp : splitDots "depth.a" = ["depth", "a"] := by decide
  simp [resolve, hsp, wData, dget, floatOf]

theorem resolve_wData_b : resolve wData.data "depth.b" = some 1 := by
  have hsp : splitDots "depth.b" = ["depth", "b"] := by decide
  simp [resolve, hsp, wData, dget, floatOf]

theorem apply_foldl_dget_none (d : SensorData) (k : String) :
    ∀ rules : List MappingRule,
      (∀ r ∈ rules, r.target_param = k → dotFree r.source_param) →
      ∀ acc : ApplyOut, dget acc.results k = none →
        dget ((rules.foldl (applyStep d) acc)).results k = none := by
  intro rules
  induction rules with
  | nil => intro _ acc hacc; exact hacc
  | cons r rest ih =>
      intro h acc hacc
      rw [List.foldl_cons]
      apply ih (fun x hx hxk => h x (List.mem_cons_of_mem _ hx) hxk)
      by_cases htgt : r.target_param = k
      · rw [applyStep_skip_dotFree d acc r (h r (List.mem_cons_self _ _) htgt)]
        exact hacc
      · rw [applyStep_results_other d acc r k (fun he => htgt he.symm)]
        exact hacc

/-! ## Claim C1: dot-less paths -/

/-- C1, amended.  The engine never checks `target_param` for a dot; it
is the rules whose `source_param` has no dot that never resolve: when
every rule aimed at target key `k` has a dot-free `source_param`,
`MappingEngine.apply` returns no entry under `k`.  (A dot-free source
either fails the category comparison or, when it equals the sensor
type, makes `_resolve` return `None` because it has fewer than two
segments.) -/
theorem C1_dotless_source_never_resolves (rules : List MappingRule)
    (st : EngineState) (d : SensorData) (k : String)
    (h : ∀ r ∈ rules, r.target_param = k → dotFree r.source_param) :
    dget (MappingEngine.apply rules st d).results k = none :=
  apply_foldl_dget_none d k rules h ⟨st, [], []⟩ rfl

/-- Counterexample to C1 as stated: `wRuleBright` has the dot-free
target `"brightness"` and the valid source `"depth.avg_depth"`; on the
reading `wData` the rule resolves and `apply` returns an entry under
that dot-free target key. -/
theorem C1_counterexample :
    dotFree wRuleBright.target_param ∧
    dget (MappingEngine.apply [wRuleBright] wState wData).results
      wRuleBright.target_param = some (1/2) := by
  constructor
  · unfold dotFree
    decide
  · have hstep : MappingEngine.apply [wRuleBright] wState wData =
        applyStep wData ⟨wState, [], []⟩ wRuleBright := rfl
    rw [hstep, applyStep_eq_table wData ⟨wState, [], []⟩ wRuleBright (1/2)
      (by decide) resolve_wData_avg (by decide)]
    simp only [wRuleBright]
    show dget (dset [] "brightness" (round6 (getTransform "linear" (1/2) 0 1)))
      "brightness" = some (1/2)
    rw [dget_dset_self, getTransform_linear]
    have hval : linear_map (1/2) 0 1 = 1/2 := by
      unfold linear_map
      norm_num
    rw [hval, round6_half]

/-- Witness for the amended C1: the dot-free source `"depth"` never
produces an entry under its target. -/
theorem C1_dotless_source_witness :
    (∀ r ∈ [wRuleNoDot], r.target_param = "visual.x" → dotFree r.source_param) ∧
    dget (MappingEngine.apply [wRuleNoDot] wState wData).results "visual.x" =
      none := by
  have hh : ∀ r ∈ [wRuleNoDot], r.target_param = "visual.x" →
      dotFree r.source_param := by
    intro r hr _
    rw [List.mem_singleton] at hr
    subst hr
    unfold dotFree
    decide
  exact ⟨hh, C1_dotless_source_never_resolves [wRuleNoDot] wState wData
    "visual.x" hh⟩

/-! ## Claim C2: smoother effects per apply call -/

theorem applyStep_touched_count (d : SensorData) (acc : ApplyOut)
    (r : MappingRule) (k : String) :
    ((applyStep d acc r).touched).count k =
      acc.touched.count k + (if firesSmoothB d k r = true then 1 else 0) := by
  by_cases hcat : srcCategory r ≠ d.sensor_type
  · rw [applyStep_skip_category d acc r hcat]
    have hf : firesSmoothB d k r = false := by
      simp only [firesSmoothB, decide_eq_false_iff_not]
      rintro ⟨h1, _⟩
      exact hcat h1
    rw [hf]
    simp
  · rw [not_ne_iff] at hcat
    cases hres : resolve d.data r.source_param with
    | none =>
        rw [applyStep_skip_resolve d acc r hres]
        have hf : firesSmoothB d k r = false := by
          simp only [firesSmoothB, decide_eq_false_iff_not]
          rintro ⟨_, h2, _⟩
          rw [hres] at h2
          simp at h2
        rw [hf]
        simp
    | some raw =>
        by_cases htr : r.transform = "smooth"
        · rw [applyStep_eq_smooth d acc r raw hcat hres htr]
          by_cases htg : r.target_param = k
          · have hf : firesSmoothB d k r = true := by
              simp only [firesSmoothB, decide_eq_true_eq]
              exact ⟨hcat, by rw [hres]; simp, htr, htg⟩
            rw [hf]
            show (acc.touched ++ [r.target_param]).count k =
              acc.touched.count k + 1
            rw [htg, List.count_append]
            simp
          · have hf : firesSmoothB d k r = false := by
              simp only [firesSmoothB, decide_eq_false_iff_not]
              rintro ⟨_, _, _, h4⟩
              exact htg h4
            rw [hf]
            show (acc.touched ++ [r.target_param]).count k =
              acc.touched.count k + 0
            rw [List.count_append]
            have hz : List.count k [r.target_param] = 0 := by
              rw [List.count_eq_zero]
              intro hmem
              rw [List.mem_singleton] at hmem
              exact htg hmem.symm
            omega
        · rw [applyStep_eq_table d acc r raw hcat hres htr]
          have hf : firesSmoothB d k r = false := by
            simp only [firesSmoothB, decide_eq_false_iff_not]
            rintro ⟨_, _, h3, _⟩
            exact htr h3
          rw [hf]
          simp

theorem apply_foldl_touched_count (d : SensorData) (k : String) :
    ∀ (rules : List MappingRule) (acc : ApplyOut),
      ((rules.foldl (applyStep d) acc).touched).count k =
        acc.touched.count k + rules.countP (firesSmoothB d k) := by
  intro rules
  induction rules with
  | nil => intro acc; simp
  | cons r rest ih =>
      intro acc
      rw [List.foldl_cons, ih, applyStep_touched_count, List.countP_cons]
      omega

/-- C2, amended.  In one call to `MappingEngine.apply` the smoother of
a target key `k` is invoked (created or mutated) exactly once per rule
that resolves with the `smooth` transform aimed at `k` — so at most
once only when at most one such rule targets `k` — and a rule skipped
because its source category differs from the reading's `sensor_type`
leaves the whole accumulator, smoothers included, untouched. -/
theorem C2_smoother_touches (rules : List MappingRule) (st : EngineState)
    (d : SensorData) (k : String) (d2 : SensorData) (acc : ApplyOut)
    (r : MappingRule) (hskip : srcCategory r ≠ d2.sensor_type) :
    ((MappingEngine.apply rules st d).touched).count k =
      rules.countP (firesSmoothB d k) ∧
    applyStep d2 acc r = acc := by
  constructor
  · unfold MappingEngine.apply
    rw [apply_foldl_touched_count]
    simp
  · exact applyStep_skip_category d2 acc r hskip

/-- Counterexample to C2 as stated: two resolving `smooth` rules share
the target `"visual.s"`, so one `apply` call invokes that key's
smoother twice — the ghost log records two touches, and the stored
state moves twice (`none` to `some 0` after the first rule, to
`some (1/2)` after the second). -/
theorem C2_counterexample :
    (MappingEngine.apply [wRuleSmooth1, wRuleSmooth2] wState wData).touched =
      ["visual.s", "visual.s"] ∧
    (MappingEngine.apply [wRuleSmooth1] wState wData).state.smoothers =
      [("visual.s", some 0)] ∧
    (MappingEngine.apply [wRuleSmooth1, wRuleSmooth2] wState
      wData).state.smoothers = [("visual.s", some (1/2))] := by
  have hstep : MappingEngine.apply [wRuleSmooth1, wRuleSmooth2] wState wData =
      applyStep wData (applyStep wData ⟨wState, [], []⟩ wRuleSmooth1)
        wRuleSmooth2 := rfl
  have hstep1 : MappingEngine.apply [wRuleSmooth1] wState wData =
      applyStep wData ⟨wState, [], []⟩ wRuleSmooth1 := rfl
  have e1 : applyStep wData ⟨wState, [], []⟩ wRuleSmooth1 =
      ⟨⟨1/2, [("visual.s", some 0)]⟩, [("visual.s", 0)], ["visual.s"]⟩ := by
    rw [applyStep_eq_smooth wData ⟨wState, [], []⟩ wRuleSmooth1 0
      (by decide) resolve_wData_a rfl]
    norm_num [wState, wRuleSmooth1, smootherCall, dget, dset, linear_map,
      round6_zero]
  have e2 : applyStep wData
      (⟨⟨1/2, [("visual.s", some 0)]⟩, [("visual.s", 0)],
        ["visual.s"]⟩ : ApplyOut) wRuleSmooth2 =
      ⟨⟨1/2, [("visual.s", some (1/2))]⟩, [("visual.s", 1/2)],
        ["visual.s", "visual.s"]⟩ := by
    rw [applyStep_eq_smooth wData _ wRuleSmooth2 1
      (by decide) resolve_wData_b rfl]
    norm_num [wRuleSmooth2, smootherCall, dget, dset, linear_map, round6_half]
  refine ⟨?_, ?_, ?_⟩
  · rw [hstep, e1, e2]
  · rw [hstep1, e1]
  · rw [hstep, e1, e2]

/-- Witness for the amended C2 at the two-rule engine and a skipped
rule of another sensor type. -/
theorem C2_smoother_touches_witness :
    (srcCategory wRuleLin ≠ wDataLidar.sensor_type) ∧
    (((MappingEngine.apply [wRuleSmooth1, wRuleSmooth2] wState
        wData).touched).count "visual.s" =
      ([wRuleSmooth1, wRuleSmooth2].countP (firesSmoothB wData "visual.s")) ∧
    applyStep wDataLidar wAcc wRuleLin = wAcc) :=
  ⟨by decide,
   C2_smoother_touches [wRuleSmooth1, wRuleSmooth2] wState wData "visual.s"
     wDataLidar wAcc wRuleLin (by decide)⟩

/-! ## Claim C3: permissive failure semantics -/

theorem applyStep_unknown_transform (d : SensorData) (acc : ApplyOut)
    (r : MappingRule)
    (h : r.transform ∉
      (["linear", "exponential", "threshold", "invert", "smooth"] :
        List String)) :
    applyStep d acc r =
      applyStep d acc
        ⟨r.source_param, r.target_param, "linear", r.min_out, r.max_out⟩ := by
  by_cases hcat : srcCategory r ≠ d.sensor_type
  · rw [applyStep_skip_category d acc r hcat,
      applyStep_skip_category d acc
        ⟨r.source_param, r.target_param, "linear", r.min_out, r.max_out⟩ hcat]
  · rw [not_ne_iff] at hcat
    cases hres : resolve d.data r.source_param with
    | none =>
        rw [applyStep_skip_resolve d acc r hres,
          applyStep_skip_resolve d acc
            ⟨r.source_param, r.target_param, "linear", r.min_out, r.max_out⟩
            hres]
    | some raw =>
        have hsm : r.transform ≠ "smooth" := fun he => h (by rw [he]; simp)
        have h4 : r.transform ∉
            (["linear", "exponential", "threshold", "invert"] :
              List String) := by
          intro hm
          apply h
          simp only [List.mem_cons] at hm ⊢
          tauto
        have hnd : dget TRANSFORMS r.transform = none :=
          dget_TRANSFORMS_none r.transform h4
        rw [applyStep_eq_table d acc r raw hcat hres hsm,
          applyStep_eq_table d acc
            ⟨r.source_param, r.target_param, "linear", r.min_out, r.max_out⟩
            raw hcat hres (by intro he; simp at he)]
        rw [getTransform_of_none r.transform hnd]
        norm_num [getTransform_linear]

/-- C3.  `MappingEngine.apply` raises no exception for any rule set and
reading — in the embedding every fallible Python operation is modelled
by a total `Option`-valued function, and the theorem records the three
degradation behaviours: a rule whose source category mismatches, and a
rule whose source field is missing or not float-convertible
(`resolve` returns `none`), each leave the loop accumulator untouched
anywhere in the rule list; a rule whose transform name is none of the
five known ones behaves exactly as the same rule with the `linear`
transform; and a rule set in which every rule misses yields the empty
result with the engine state unchanged. -/
theorem C3_apply_never_raises (d : SensorData) (acc : ApplyOut)
    (r1 r2 r3 : MappingRule) (rules : List MappingRule) (st : EngineState)
    (d4 : SensorData)
    (h1 : srcCategory r1 ≠ d.sensor_type)
    (h2 : resolve d.data r2.source_param = none)
    (h3 : r3.transform ∉
      (["linear", "exponential", "threshold", "invert", "smooth"] :
        List String))
    (h4 : ∀ r ∈ rules, srcCategory r ≠ d4.sensor_type ∨
      resolve d4.data r.source_param = none) :
    applyStep d acc r1 = acc ∧
    applyStep d acc r2 = acc ∧
    applyStep d acc r3 =
      applyStep d acc
        ⟨r3.source_param, r3.target_param, "linear", r3.min_out,
          r3.max_out⟩ ∧
    MappingEngine.apply rules st d4 = ⟨st, [], []⟩ :=
  ⟨applyStep_skip_category d acc r1 h1,
   applyStep_skip_resolve d acc r2 h2,
   applyStep_unknown_transform d acc r3 h3,
   apply_foldl_all_skip d4 rules h4 ⟨st, [], []⟩⟩

/-- Witness for C3: a mismatched category, a dot-less (hence
unresolvable) source, the unknown transform name `"wibble"`, and a
one-rule set that never fires. -/
theorem C3_apply_never_raises_witness :
    (srcCategory wRuleLin ≠ wDataLidar.sensor_type ∧
     resolve wDataLidar.data wRuleNoDot.source_param = none ∧
     wRuleUnknown.transform ∉
       (["linear", "exponential", "threshold", "invert", "smooth"] :
         List String)) ∧
    (applyStep wDataLidar wAcc wRuleLin = wAcc ∧
     applyStep wDataLidar wAcc wRuleNoDot = wAcc ∧
     applyStep wDataLidar wAcc wRuleUnknown =
       applyStep wDataLidar wAcc
         ⟨wRuleUnknown.source_param, wRuleUnknown.target_param, "linear",
           wRuleUnknown.min_out, wRuleUnknown.max_out⟩ ∧
     MappingEngine.apply [wRuleLin] wState wDataLidar = ⟨wState, [], []⟩) := by
  have hres : resolve wDataLidar.data wRuleNoDot.source_param = none := by
    have hsp : splitDots "depth" = ["depth"] := by decide
    show resolve wDataLidar.data "depth" = none
    simp [resolve, hsp]
  have hmem : ∀ r ∈ [wRuleLin], srcCategory r ≠ wDataLidar.sensor_type ∨
      resolve wDataLidar.data r.source_param = none := by
    intro r hr
    rw [List.mem_singleton] at hr
    subst hr
    left
    decide
  exact ⟨⟨by decide, hres, by decide⟩,
    C3_apply_never_raises wDataLidar wAcc wRuleLin wRuleNoDot wRuleUnknown
      [wRuleLin] wState wDataLidar (by decide) hres (by decide) hmem⟩

/-! ## Claim C5: the smooth transform pipeline -/

/-- C5.  A `smooth` rule that resolves drives the smoother exactly as
the source states: a fresh key stores the raw value, a later call moves
the state by `alpha * (raw - state)`, and the emitted smoothed value is
scaled with `linear_map` over the rule's output range (then rounded)
before being stored under the rule's target key. -/
theorem C5_smooth_pipeline (alpha raw s : ℝ) (d : SensorData)
    (acc : ApplyOut) (r : MappingRule)
    (hcat : srcCategory r = d.sensor_type)
    (hres : resolve d.data r.source_param = some raw)
    (htr : r.transform = "smooth") :
    smootherCall alpha none raw = (raw, some raw) ∧
    smootherCall alpha (some s) raw =
      (s + alpha * (raw - s), some (s + alpha * (raw - s))) ∧
    applyStep d acc r = ⟨
      ⟨acc.state.smoothAlpha,
       dset acc.state.smoothers r.target_param
         (smootherCall acc.state.smoothAlpha
           ((dget acc.state.smoothers r.target_param).getD none) raw).2⟩,
      dset acc.results r.target_param
        (round6 (linear_map
          (smootherCall acc.state.smoothAlpha
            ((dget acc.state.smoothers r.target_param).getD none) raw).1
          r.min_out r.max_out)),
      acc.touched ++ [r.target_param]⟩ :=
  ⟨rfl, rfl, applyStep_eq_smooth d acc r raw hcat hres htr⟩

/-- Witness for C5 at the fresh-key smoothing rule `wRuleSmooth1`. -/
theorem C5_smooth_pipeline_witness :
    (srcCategory wRuleSmooth1 = wData.sensor_type ∧
     resolve wData.data wRuleSmooth1.source_param = some 0 ∧
     wRuleSmooth1.transform = "smooth") ∧
    (smootherCall (1/2) none 0 = (0, some 0) ∧
     smootherCall (1/2) (some 3) 0 =
       (3 + (1/2) * (0 - 3), some (3 + (1/2) * (0 - 3))) ∧
     applyStep wData wAcc wRuleSmooth1 = ⟨
       ⟨wAcc.state.smoothAlpha,
        dset wAcc.state.smoothers wRuleSmooth1.target_param
          (smootherCall wAcc.state.smoothAlpha
            ((dget wAcc.state.smoothers wRuleSmooth1.target_param).getD none)
            0).2⟩,
       dset wAcc.results wRuleSmooth1.target_param
         (round6 (linear_map
           (smootherCall wAcc.state.smoothAlpha
             ((dget wAcc.state.smoothers
               wRuleSmooth1.target_param).getD none) 0).1
           wRuleSmooth1.min_out wRuleSmooth1.max_out)),
       wAcc.touched ++ [wRuleSmooth1.target_param]⟩) :=
  ⟨⟨by decide, resolve_wData_a, rfl⟩,
   C5_smooth_pipeline (1/2) 0 3 wData wAcc wRuleSmooth1 (by decide)
     resolve_wData_a rfl⟩

/-! ## Claims C6, C8 and C9: transform contracts -/

/-- C6.  `linear_map` agrees with the affine formula `a + v * (b - a)`
on `[0, 1]` and clamps to the nearest bound outside: below 0 it yields
`a`, above 1 it yields `b`. -/
theorem C6_linear_map_contract (v a b : ℝ) :
    (0 ≤ v → v ≤ 1 → linear_map v a b = a + v * (b - a)) ∧
    (v < 0 → linear_map v a b = a) ∧
    (1 < v → linear_map v a b = b) := by
  unfold linear_map
  refine ⟨?_, ?_, ?_⟩
  · intro h0 h1
    rw [min_eq_right h1, max_eq_right h0]
  · intro h
    rw [min_eq_right (le_trans h.le (by norm_num : (0:ℝ) ≤ 1)),
      max_eq_left h.le]
    ring
  · intro h
    rw [min_eq_left h.le]
    rw [show max (0:ℝ) 1 = 1 from by norm_num]
    ring

/-- Witness for C6 at `v = 1/2`, `v = -2` and `v = 3` over the range
`[4, 10]`. -/
theorem C6_linear_map_contract_witness :
    ((0:ℝ) ≤ 1/2 ∧ (1/2:ℝ) ≤ 1 ∧ (-2:ℝ) < 0 ∧ (1:ℝ) < 3) ∧
    (linear_map (1/2) 4 10 = 4 + (1/2) * (10 - 4) ∧
     linear_map (-2) 4 10 = 4 ∧
     linear_map 3 4 10 = 10) :=
  ⟨⟨by norm_num, by norm_num, by norm_num, by norm_num⟩,
   (C6_linear_map_contract (1/2) 4 10).1 (by norm_num) (by norm_num),
   (C6_linear_map_contract (-2) 4 10).2.1 (by norm_num),
   (C6_linear_map_contract 3 4 10).2.2 (by norm_num)⟩

/-- C8.  On `[0, 1]`, `invert` is `linear_map` of the complement, and
at the endpoints it swaps the output bounds. -/
theorem C8_invert_relation (v a b : ℝ) (h0 : 0 ≤ v) (h1 : v ≤ 1) :
    invert v a b = linear_map (1 - v) a b ∧
    invert 0 a b = b ∧ invert 1 a b = a := by
  refine ⟨?_, ?_, ?_⟩
  · unfold invert linear_map
    rw [min_eq_right h1, max_eq_right h0,
      min_eq_right (by linarith : (1:ℝ) - v ≤ 1),
      max_eq_right (by linarith : (0:ℝ) ≤ 1 - v)]
  · unfold invert
    norm_num
  · unfold invert
    norm_num

/-- Witness for C8 at `v = 1/4` over the range `[3, 7]`. -/
theorem C8_invert_relation_witness :
    ((0:ℝ) ≤ 1/4 ∧ (1/4:ℝ) ≤ 1) ∧
    (invert (1/4) 3 7 = linear_map (1 - 1/4) 3 7 ∧
     invert 0 3 7 = 7 ∧ invert 1 3 7 = 3) :=
  ⟨⟨by norm_num, by norm_num⟩,
   C8_invert_relation (1/4) 3 7 (by norm_num) (by norm_num)⟩

/-- C9.  `exponential_map` hits the range endpoints exactly at 0 and 1,
and at the midpoint it sits strictly below `linear_map` whenever
`b > a`: the clamped input is raised to the fixed exponent 2.5 before
the affine scaling. -/
theorem C9_exponential_curve (a b : ℝ) :
    exponential_map 0 a b = a ∧ exponential_map 1 a b = b ∧
    (a < b → exponential_map (1/2) a b < linear_map (1/2) a b) := by
  refine ⟨?_, ?_, ?_⟩
  · unfold exponential_map
    rw [show max (0:ℝ) (min 1 0) = 0 from by norm_num,
      Real.zero_rpow (by norm_num : (2.5:ℝ) ≠ 0)]
    ring
  · unfold exponential_map
    rw [show max (0:ℝ) (min 1 1) = 1 from by norm_num, Real.one_rpow]
    ring
  · intro hab
    unfold exponential_map linear_map
    rw [show max (0:ℝ) (min 1 (1/2)) = 1/2 from by norm_num]
    have hc : (1/2 : ℝ) ^ (2.5 : ℝ) < 1/2 := by
      have h := Real.rpow_lt_rpow_of_exponent_gt
        (show (0:ℝ) < 1/2 from by norm_num)
        (show (1/2:ℝ) < 1 from by norm_num)
        (show (1:ℝ) < 2.5 from by norm_num)
      rw [Real.rpow_one] at h
      exact h
    have hba : (0:ℝ) < b - a := by linarith
    have hmul := mul_lt_mul_of_pos_right hc hba
    linarith

/-- Witness for C9 over the range `[0, 1]`. -/
theorem C9_exponential_curve_witness :
    ((0:ℝ) < 1) ∧
    (exponential_map 0 0 1 = 0 ∧ exponential_map 1 0 1 = 1 ∧
     exponential_map (1/2) 0 1 < linear_map (1/2) 0 1) :=
  ⟨by norm_num,
   (C9_exponential_curve 0 1).1,
   (C9_exponential_curve 0 1).2.1,
   (C9_exponential_curve 0 1).2.2 (by norm_num)⟩
